import Mathlib

/-!
Verification of the UDP sensor server's packet parser and per-device
reassembly buffer (src/udp-server.py, class IoTUDPServer).

Modelling conventions:
* A datagram payload is modelled after UTF-8 decoding, as a
  `List Char` (the Python code works on `packet_str`); the
  byte-level `EncodingError` case is outside this text-level model.
* Python's `str.split(sep)` is `splitCh`, `str.strip()` is `pyStrip`
  (ASCII whitespace), `str.replace('sendVal','')` is `stripSendVal`,
  `'sendVal' in content` is `containsSendVal`.
* `float(value)` success is modelled by `isPyFloat` (CPython's float
  grammar over ASCII: optional sign, inf/infinity/nan case-insensitive,
  digits with underscores, optional fraction and exponent).  A parsed
  float is represented by its source text, since no claim depends on
  numeric identity of two distinct representations.
* Python dicts are association lists with dict semantics: assignment
  overwrites in place, new keys append at the end (`aset`); `.update`
  is `dupdate`; `del` is `adel`; membership lookup is `alookup`.
* `parse_packet` returning `None` (any caught exception) is `none`.
-/

/-- Python `str.split(sep)` for a one-character separator:
splits on every occurrence, keeping empty pieces; never returns `[]`. -/
def splitCh (c : Char) : List Char → List (List Char)
  | [] => [[]]
  | a :: as =>
    let r := splitCh c as
    if a = c then [] :: r
    else (a :: r.headD []) :: r.tail

/-- ASCII whitespace as stripped by Python `str.strip()`. -/
def pyWs (c : Char) : Bool :=
  c = ' ' || c = '\t' || c = '\n' || c = '\r' || c = '\x0b' || c = '\x0c'

/-- Drop trailing characters satisfying `pyWs`. -/
def dropTrail (l : List Char) : List Char :=
  (l.reverse.dropWhile pyWs).reverse

/-- Python `str.strip()` (ASCII whitespace model). -/
def pyStrip (l : List Char) : List Char :=
  dropTrail (l.dropWhile pyWs)

/-- Python `content.replace('sendVal', '')`: delete every
non-overlapping occurrence of `sendVal`, scanning left to right. -/
def stripSendVal : List Char → List Char
  | 's' :: 'e' :: 'n' :: 'd' :: 'V' :: 'a' :: 'l' :: rest => stripSendVal rest
  | c :: cs => c :: stripSendVal cs
  | [] => []

/-- Python `'sendVal' in content`. -/
def containsSendVal : List Char → Bool
  | 's' :: 'e' :: 'n' :: 'd' :: 'V' :: 'a' :: 'l' :: _ => true
  | _ :: cs => containsSendVal cs
  | [] => false

/-! CPython `float(str)` grammar (ASCII model). -/

/-- Consume `('_'? digit)*`, the continuation of a Python digit part
(underscores are only allowed between digits). -/
def digRest : List Char → List Char
  | [] => []
  | c :: cs =>
    if c.isDigit then digRest cs
    else if c = '_' then
      match cs with
      | [] => [c]
      | d :: cs2 => if d.isDigit then digRest cs2 else c :: cs
    else c :: cs

/-- Consume a Python `digitpart` (`digit ('_'? digit)*`);
`none` when no leading digit. -/
def digSeq : List Char → Option (List Char)
  | [] => none
  | c :: cs => if c.isDigit then some (digRest cs) else none

/-- Consume a Python float `number`:
`digitpart ['.' [digitpart]] | '.' digitpart`. -/
def numBody (l : List Char) : Option (List Char) :=
  match digSeq l with
  | some r =>
    match r with
    | '.' :: r2 =>
      some (match digSeq r2 with
            | some r3 => r3
            | none => r2)
    | _ => some r
  | none =>
    match l with
    | '.' :: r2 => digSeq r2
    | _ => none

/-- Consume an optional exponent `('e'|'E') ['+'|'-'] digitpart`. -/
def expSeg (l : List Char) : Option (List Char) :=
  match l with
  | [] => some []
  | c :: r =>
    if c = 'e' || c = 'E' then
      match r with
      | s :: r2 => if s = '+' || s = '-' then digSeq r2 else digSeq r
      | [] => none
    else some l

/-- Strip one optional leading sign. -/
def dropSign (l : List Char) : List Char :=
  match l with
  | c :: r => if c = '+' || c = '-' then r else l
  | [] => []

/-- Does CPython `float(value)` succeed on this text?  Strips
whitespace, accepts an optional sign followed by `inf`, `infinity`,
`nan` (case-insensitive) or a numeric literal with optional fraction,
exponent and digit-group underscores. -/
def isPyFloat (l : List Char) : Bool :=
  let body := dropSign (pyStrip l)
  let low := body.map Char.toLower
  if low = "inf".data || low = "infinity".data || low = "nan".data then true
  else
    match numBody body with
    | some r =>
      match expSeg r with
      | some [] => true
      | _ => false
    | none => false

/-! Association lists with Python-dict semantics. -/

/-- First-match lookup (`k in d` / `d[k]`). -/
def alookup {α : Type} : List (List Char × α) → List Char → Option α
  | [], _ => none
  | e :: d, k => if e.1 = k then some e.2 else alookup d k

/-- Python dict assignment `d[k] = v`: overwrite in place when the key
is present, otherwise append at the end (insertion order). -/
def aset {α : Type} (d : List (List Char × α)) (k : List Char) (v : α) :
    List (List Char × α) :=
  if d.any (fun e => e.1 = k) then
    d.map (fun e => if e.1 = k then (k, v) else e)
  else d ++ [(k, v)]

/-- Python `del d[k]` (keys are unique in a dict, so removing every
entry with key `k` agrees with removing the one entry). -/
def adel {α : Type} (d : List (List Char × α)) (k : List Char) :
    List (List Char × α) :=
  d.filter (fun e => e.1 ≠ k)

/-- A channel value: `none` models Python `None` (the `NaN` token),
`some v` models `float(v)` represented by its source text `v`. -/
abbrev ChanVal := Option (List Char)

/-- The `channel_data` dict of a packet. -/
abbrev Dict := List (List Char × ChanVal)

/-- Python `d.update(e)`: assign every entry of `e`, in `e`'s order. -/
def dupdate (d e : Dict) : Dict :=
  e.foldl (fun a p => aset a p.1 p.2) d

/-- The dictionary returned by `parse_packet` (src/udp-server.py
lines 85-91). -/
structure Packet where
  serial : List Char
  channel_data : Dict
  checksum : List Char
  raw_packet : List Char
  is_end_marker : Bool
deriving DecidableEq

/-- `packet_str.split('<')[1].split('>')[0]` (line 65). -/
def contentOf (s : List Char) : List Char :=
  ((splitCh '>' ((splitCh '<' s).getD 1 [])).headD [])

/-- `packet_str.split('>')[-1]` (line 66). -/
def checksumOf (s : List Char) : List Char :=
  (splitCh '>' s).getLastD []

/-- The loop body of lines 73-83: process one `;`-separated token.
`acc = none` records that a previous token already raised an uncaught
`ValueError` (a token whose stripped text splits on `=` into a number
of parts other than two makes the tuple unpacking at line 75 raise
outside the inner `try`, aborting the whole parse). -/
def parse_channel_token (acc : Option Dict) (tok : List Char) : Option Dict :=
  match acc with
  | none => none
  | some d =>
    if '=' ∈ tok then
      match splitCh '=' (pyStrip tok) with
      | [k, v] =>
        some (if pyStrip v = "NaN".data then aset d k none
              else if isPyFloat v then aset d k (some v)
              else d)
      | _ => none
    else some d

/-- Lines 72-83: the channel dictionary built from `channels_part`,
or `none` when the loop raises an uncaught exception. -/
def parse_channels (cpart : List Char) : Option Dict :=
  if cpart = [] then some []
  else (splitCh ';' cpart).foldl parse_channel_token (some [])

/-- `IoTUDPServer.parse_packet` (lines 58-95) at the text level.
Returning `none` models the `except` branch returning Python `None`:
this happens when there is no `<` (IndexError at line 64), when
`'sendVal' not in content` (line 90 then reads the never-assigned
local `channels_part`, an UnboundLocalError), or when a token unpacks
into more than two pieces at line 75. -/
def parse_packet (s : List Char) : Option Packet :=
  if (splitCh '<' s).length < 2 then none
  else
    let serial := (splitCh '<' s).headD []
    let content := contentOf s
    let checksum := checksumOf s
    if containsSendVal content then
      let cpart := pyStrip (stripSendVal content)
      match parse_channels cpart with
      | none => none
      | some d =>
        some ⟨serial, d, checksum, s, (pyStrip cpart).isEmpty⟩
    else none

/-- One consolidated reading (the arguments handed to
`save_to_database` / `write_to_csv` by `process_complete_dataset`). -/
structure Reading where
  device_id : List Char
  channels : Dict
  raw_fragments : List (List Char)
deriving DecidableEq

/-- `self.packet_buffer`: device id → packets stored so far.  The
Python dict keyed by the incrementing integer `len(...)` is an ordered
sequence, modelled as a list in arrival order. -/
abbrev Buffer := List (List Char × List Packet)

/-- The channel merge of lines 155-159: start from `{}` and
`update` with each fragment's `channel_data` in arrival order. -/
def combineFrags (frags : List Packet) : Dict :=
  frags.foldl (fun acc f => dupdate acc f.channel_data) []

/-- `IoTUDPServer.process_complete_dataset` (lines 151-172): merge the
pending fragments, emit the Reading (persistence is the external
sink), and delete the device's buffer entry. -/
def process_complete_dataset (b : Buffer) (serial : List Char) :
    Buffer × Reading :=
  let frags := (alookup b serial).getD []
  (adel b serial,
   ⟨serial, combineFrags frags, frags.map (fun f => f.raw_packet)⟩)

/-- One iteration of the receive loop in `start` (lines 187-196),
after a successful parse: an end marker completes the dataset if the
device is pending, otherwise it is dropped; a data packet is appended
to the device's buffer entry (created on first use by the
`defaultdict`). -/
def start_step (b : Buffer) (p : Packet) : Buffer × Option Reading :=
  if p.is_end_marker then
    if (alookup b p.serial).isSome then
      let res := process_complete_dataset b p.serial
      (res.1, some res.2)
    else (b, none)
  else
    (aset b p.serial ((alookup b p.serial).getD [] ++ [p]), none)

/-- The receive loop of `start` over a list of parsed packets,
collecting the Readings handed to the sink in order. -/
def start (b : Buffer) : List Packet → Buffer × List Reading
  | [] => (b, [])
  | p :: ps =>
    let s1 := start_step b p
    let rest := start s1.1 ps
    (rest.1, s1.2.toList ++ rest.2)

/-- The spec's key-wise last-write-wins merge: the value a key ends up
with is the last value any fragment assigns to it, in arrival order. -/
def lastWriteWins (frags : List Packet) (k : List Char) : Option ChanVal :=
  frags.foldl
    (fun o f =>
      match alookup f.channel_data k with
      | some v => some v
      | none => o)
    none

/-! ### Generic list lemmas -/

theorem takeWhile_append_all {α : Type} (p : α → Bool) :
    ∀ xs ys : List α, (∀ x ∈ xs, p x = true) →
      List.takeWhile p (xs ++ ys) = xs ++ List.takeWhile p ys
  | [], ys, _ => rfl
  | x :: xs, ys, h => by
    have hx : p x = true := h x (by simp)
    simp only [List.cons_append, List.takeWhile_cons, hx, if_true]
    rw [takeWhile_append_all p xs ys (fun a ha => h a (by simp [ha]))]

theorem takeWhile_all {α : Type} (p : α → Bool) :
    ∀ xs : List α, (∀ x ∈ xs, p x = true) → List.takeWhile p xs = xs
  | [], _ => rfl
  | x :: xs, h => by
    have hx : p x = true := h x (by simp)
    simp only [List.takeWhile_cons, hx, if_true]
    rw [takeWhile_all p xs (fun a ha => h a (by simp [ha]))]

theorem takeWhile_append_stop {α : Type} (p : α → Bool) :
    ∀ xs ys : List α, (∃ x ∈ xs, p x = false) →
      List.takeWhile p (xs ++ ys) = List.takeWhile p xs
  | [], _, h => by simp at h
  | x :: xs, ys, h => by
    by_cases hx : p x = true
    · simp only [List.cons_append, List.takeWhile_cons, hx, if_true]
      rcases h with ⟨a, ha, hpa⟩
      rcases List.mem_cons.mp ha with he | ha
      · rw [he, hx] at hpa; cases hpa
      · rw [takeWhile_append_stop p xs ys ⟨a, ha, hpa⟩]
    · have hx' : p x = false := by revert hx; cases p x <;> simp
      simp [List.takeWhile_cons, hx']

theorem length_dropWhile_le {α : Type} (p : α → Bool) :
    ∀ l : List α, (List.dropWhile p l).length ≤ l.length
  | [] => Nat.le_refl _
  | x :: xs => by
    by_cases hx : p x = true
    · simp only [List.dropWhile_cons, hx, if_true]
      exact Nat.le_succ_of_le (length_dropWhile_le p xs)
    · have hx' : p x = false := by revert hx; cases p x <;> simp
      simp [List.dropWhile_cons, hx']

theorem dropWhile_eq_drop {α : Type} (p : α → Bool) :
    ∀ l : List α, ∃ k, List.dropWhile p l = l.drop k ∧ k ≤ l.length
  | [] => ⟨0, rfl, Nat.le_refl _⟩
  | x :: xs => by
    by_cases hx : p x = true
    · rcases dropWhile_eq_drop p xs with ⟨k, hk, hle⟩
      exact ⟨k + 1, by simpa [List.dropWhile_cons, hx] using hk,
        Nat.succ_le_succ hle⟩
    · have hx' : p x = false := by revert hx; cases p x <;> simp
      exact ⟨0, by simp [List.dropWhile_cons, hx'], Nat.zero_le _⟩

theorem dropWhile_take {α : Type} (p : α → Bool) (l : List α) (n : Nat)
    (h : List.dropWhile p l = l) :
    List.dropWhile p (l.take n) = l.take n := by
  cases l with
  | nil => simp
  | cons a as =>
    have ha : p a = false := by
      by_cases hp : p a = true
      · exfalso
        have h1 : List.dropWhile p (a :: as) = List.dropWhile p as := by
          simp [List.dropWhile_cons, hp]
        have h2 : (List.dropWhile p as).length ≤ as.length :=
          length_dropWhile_le p as
        rw [h] at h1
        have := congrArg List.length h1
        simp at this
        omega
      · revert hp; cases p a <;> simp
    cases n with
    | zero => simp
    | succ m => simp [List.take_succ_cons, List.dropWhile_cons, ha]

theorem count_dropWhile {α : Type} [DecidableEq α] (p : α → Bool) (c : α)
    (hc : p c = false) :
    ∀ l : List α, (List.dropWhile p l).count c = l.count c
  | [] => rfl
  | x :: xs => by
    by_cases hx : p x = true
    · have hxc : x ≠ c := fun he => by rw [he, hc] at hx; cases hx
      simp [List.dropWhile_cons, hx, List.count_cons, hxc,
        count_dropWhile p c hc xs]
    · have hx' : p x = false := by revert hx; cases p x <;> simp
      simp [List.dropWhile_cons, hx']

/-! ### `splitCh` lemmas -/

theorem splitCh_ne_nil (c : Char) : ∀ l : List Char, splitCh c l ≠ []
  | [] => by simp [splitCh]
  | a :: as => by
    by_cases h : a = c <;> simp [splitCh, h]

theorem splitCh_length (c : Char) :
    ∀ l : List Char, (splitCh c l).length = l.count c + 1
  | [] => rfl
  | a :: as => by
    by_cases h : a = c
    · simp [splitCh, h, List.count_cons, splitCh_length c as]
    · have hne := splitCh_ne_nil c as
      rcases hr : splitCh c as with _ | ⟨hd, tl⟩
      · exact absurd hr hne
      · have := splitCh_length c as
        rw [hr] at this
        simp [splitCh, h, hr, List.count_cons]
        simp at this
        omega

theorem splitCh_headD (c : Char) :
    ∀ l : List Char, (splitCh c l).headD [] = l.takeWhile (fun a => a != c)
  | [] => rfl
  | a :: as => by
    by_cases h : a = c
    · simp [splitCh, h, List.takeWhile_cons]
    · have hb : (a != c) = true := by simp [bne_iff_ne, h]
      have ih := splitCh_headD c as
      simp only [List.headD_eq_head?] at ih
      simp [splitCh, h, List.takeWhile_cons, hb, ih]

theorem splitCh_of_mem (c : Char) :
    ∀ l : List Char, c ∈ l →
      splitCh c l = l.takeWhile (fun a => a != c) ::
        splitCh c ((l.dropWhile (fun a => a != c)).tail)
  | a :: as, h => by
    by_cases hac : a = c
    · have hb : (a != c) = false := by simp [hac]
      simp [splitCh, hac, List.takeWhile_cons, List.dropWhile_cons, hb]
    · have hb : (a != c) = true := by simp [bne_iff_ne, hac]
      have hcas : c ∈ as := by
        rcases List.mem_cons.mp h with he | hm
        · exact absurd he.symm hac
        · exact hm
      have ih := splitCh_of_mem c as hcas
      simp [splitCh, hac, List.takeWhile_cons, List.dropWhile_cons, hb, ih]

theorem takeWhile_append_mid {α : Type} (p : α → Bool) :
    ∀ (xs : List α) (y : α) (ys : List α), p y = false →
      List.takeWhile p (xs ++ y :: ys) = List.takeWhile p xs
  | [], y, ys, h => by simp [List.takeWhile_cons, h]
  | x :: xs, y, ys, h => by
    by_cases hx : p x = true
    · simp only [List.cons_append, List.takeWhile_cons, hx, if_true]
      rw [takeWhile_append_mid p xs y ys h]
    · have hx' : p x = false := by revert hx; cases p x <;> simp
      simp [List.takeWhile_cons, hx']

theorem getLastD_irrel {α : Type} :
    ∀ (l : List α), l ≠ [] → ∀ d d' : α, l.getLastD d = l.getLastD d'
  | [], h, _, _ => absurd rfl h
  | _ :: l, _, d, d' => by rw [List.getLastD_cons, List.getLastD_cons]

theorem splitCh_getLastD (c : Char) :
    ∀ l : List Char,
      (splitCh c l).getLastD [] = (l.reverse.takeWhile (fun a => a != c)).reverse
  | [] => rfl
  | a :: as => by
    have hne := splitCh_ne_nil c as
    have ih := splitCh_getLastD c as
    by_cases hac : a = c
    · have h1 : (splitCh c (a :: as)).getLastD [] = (splitCh c as).getLastD [] := by
        rcases hr : splitCh c as with _ | ⟨hd, tl⟩
        · exact absurd hr hne
        · simp [splitCh, hac, hr, List.getLastD_cons]
      rw [h1, ih, hac]
      rw [show (c :: as).reverse = as.reverse ++ c :: [] from by simp]
      rw [takeWhile_append_mid (fun y => y != c) as.reverse c [] (by simp)]
    · have hb : (a != c) = true := by simp [bne_iff_ne, hac]
      rcases hr : splitCh c as with _ | ⟨hd, tl⟩
      · exact absurd hr hne
      · rcases htl : tl with _ | ⟨t1, ts⟩
        · -- single piece: as contains no c
          have hlen := splitCh_length c as
          rw [hr, htl] at hlen
          simp at hlen
          have hnotin : c ∉ as := by
            rw [← List.count_eq_zero (a := c) (l := as)]
            omega
          have hall : ∀ x ∈ as.reverse ++ [a], (fun y => y != c) x = true := by
            intro x hx
            rcases List.mem_append.mp hx with h1 | h1
            · have hxas : x ∈ as := List.mem_reverse.mp h1
              have hxc : x ≠ c := fun he => hnotin (he ▸ hxas)
              simp [bne_iff_ne, hxc]
            · simp at h1
              simp [h1, bne_iff_ne, hac]
          have hhd : hd = as := by
            have hh := splitCh_headD c as
            rw [hr] at hh
            simp at hh
            rw [hh, takeWhile_all _ _ (fun x hx => by
              have hxc : x ≠ c := fun he => hnotin (he ▸ hx)
              simp [bne_iff_ne, hxc])]
          simp [splitCh, hac, hr, htl, List.getLastD_cons, hhd]
          rw [takeWhile_all _ _ hall]
          simp
        · -- at least two pieces: as contains c
          have hlen := splitCh_length c as
          rw [hr, htl] at hlen
          simp at hlen
          have hcin : c ∈ as := by
            rw [← List.count_pos_iff (a := c) (l := as)]
            omega
          have h1 : (splitCh c (a :: as)).getLastD [] =
              (splitCh c as).getLastD [] := by
            simp [splitCh, hac, hr, htl, List.getLastD_cons]
          rw [h1, ih]
          rw [show (a :: as).reverse = as.reverse ++ a :: [] from by simp]
          rw [takeWhile_append_stop (fun y => y != c) as.reverse (a :: [])
            ⟨c, List.mem_reverse.mpr hcin, by simp⟩]

/-! ### `pyStrip` lemmas -/

theorem count_dropTrail (c : Char) (hc : pyWs c = false) (l : List Char) :
    (dropTrail l).count c = l.count c := by
  unfold dropTrail
  rw [List.count_reverse, count_dropWhile pyWs c hc, List.count_reverse]

theorem count_pyStrip (c : Char) (hc : pyWs c = false) (l : List Char) :
    (pyStrip l).count c = l.count c := by
  unfold pyStrip
  rw [count_dropTrail c hc, count_dropWhile pyWs c hc]

theorem dropTrail_idem (l : List Char) : dropTrail (dropTrail l) = dropTrail l := by
  unfold dropTrail
  rw [List.reverse_reverse, List.dropWhile_idempotent]

theorem dropTrail_eq_take (l : List Char) : ∃ n, dropTrail l = l.take n := by
  rcases dropWhile_eq_drop pyWs l.reverse with ⟨k, hk, hle⟩
  refine ⟨l.length - k, ?_⟩
  unfold dropTrail
  rw [hk]
  have h1 : (l.take (l.length - k)).reverse = l.reverse.drop k := by
    rw [List.reverse_take]
    congr 1
    simp only [List.length_reverse] at hle
    omega
  calc (l.reverse.drop k).reverse
      = (l.take (l.length - k)).reverse.reverse := by rw [h1]
    _ = l.take (l.length - k) := List.reverse_reverse _

theorem dropWhile_pyStrip (l : List Char) :
    (pyStrip l).dropWhile pyWs = pyStrip l := by
  unfold pyStrip
  rcases dropTrail_eq_take (l.dropWhile pyWs) with ⟨n, hn⟩
  rw [hn]
  exact dropWhile_take pyWs _ n (List.dropWhile_idempotent _ _)

theorem pyStrip_idem (l : List Char) : pyStrip (pyStrip l) = pyStrip l := by
  have h1 : pyStrip (pyStrip l) = dropTrail (pyStrip l) := by
    unfold pyStrip
    rw [show (dropTrail (l.dropWhile pyWs)).dropWhile pyWs
          = pyStrip l from dropWhile_pyStrip l]
    rfl
  rw [h1]
  unfold pyStrip
  exact dropTrail_idem _

theorem pyStrip_self_of_stripped (l : List Char) :
    pyStrip (pyStrip l) = [] → pyStrip l = [] := by
  intro h
  rw [pyStrip_idem] at h
  exact h

/-! ### Association-list (Python dict) lemmas -/

theorem alookup_isSome_iff_any {α : Type} :
    ∀ (d : List (List Char × α)) (k : List Char),
      (alookup d k).isSome = d.any (fun e => e.1 = k)
  | [], _ => rfl
  | e :: d, k => by
    by_cases h : e.1 = k <;> simp [alookup, h, alookup_isSome_iff_any d k]

theorem alookup_replace_self {α : Type} (k : List Char) (v : α) :
    ∀ d : List (List Char × α), d.any (fun e => e.1 = k) = true →
      alookup (d.map (fun e => if e.1 = k then (k, v) else e)) k = some v
  | [], h => by simp at h
  | e :: d, h => by
    by_cases he : e.1 = k
    · simp [alookup, he]
    · have h' : d.any (fun e => e.1 = k) = true := by
        have hh := h
        rw [List.any_cons] at hh
        rw [decide_eq_false he, Bool.false_or] at hh
        exact hh
      simp only [List.map_cons, if_neg he]
      rw [show alookup ((e : List Char × α) ::
            d.map (fun e => if e.1 = k then (k, v) else e)) k
          = alookup (d.map (fun e => if e.1 = k then (k, v) else e)) k from by
        simp [alookup, he]]
      exact alookup_replace_self k v d h'

theorem alookup_replace_ne {α : Type} (k k' : List Char) (v : α)
    (hk : k' ≠ k) :
    ∀ d : List (List Char × α),
      alookup (d.map (fun e => if e.1 = k then (k, v) else e)) k'
        = alookup d k'
  | [] => rfl
  | e :: d => by
    by_cases he : e.1 = k
    · have h2 : k ≠ k' := fun hh => hk hh.symm
      have h3 : e.1 ≠ k' := fun hh => h2 (he ▸ hh)
      simp only [List.map_cons, if_pos he]
      rw [show alookup (((k, v) : List Char × α) ::
            d.map (fun e => if e.1 = k then (k, v) else e)) k'
          = alookup (d.map (fun e => if e.1 = k then (k, v) else e)) k' from by
        simp [alookup, h2],
        show alookup (e :: d) k' = alookup d k' from by simp [alookup, h3]]
      exact alookup_replace_ne k k' v hk d
    · by_cases h4 : e.1 = k'
      · simp [alookup, he, h4, hk]
      · simp only [List.map_cons, if_neg he]
        rw [show alookup ((e : List Char × α) ::
              d.map (fun e => if e.1 = k then (k, v) else e)) k'
            = alookup (d.map (fun e => if e.1 = k then (k, v) else e)) k' from by
          simp [alookup, h4],
          show alookup (e :: d) k' = alookup d k' from by simp [alookup, h4]]
        exact alookup_replace_ne k k' v hk d

theorem alookup_append_single_self {α : Type} (k : List Char) (v : α) :
    ∀ d : List (List Char × α), d.any (fun e => e.1 = k) = false →
      alookup (d ++ [(k, v)]) k = some v
  | [], _ => by simp [alookup]
  | e :: d, h => by
    have he : e.1 ≠ k := by
      intro hh
      simp [List.any_cons, hh] at h
    have h' : d.any (fun e => e.1 = k) = false := by
      simp only [List.any_cons] at h
      revert h
      cases d.any (fun e => e.1 = k) <;> simp
    simp only [List.cons_append]
    rw [show alookup ((e : List Char × α) :: (d ++ [(k, v)])) k
          = alookup (d ++ [(k, v)]) k from by simp [alookup, he]]
    exact alookup_append_single_self k v d h'

theorem alookup_append_single_ne {α : Type} (k k' : List Char) (v : α)
    (hk : k' ≠ k) :
    ∀ d : List (List Char × α), alookup (d ++ [(k, v)]) k' = alookup d k'
  | [] => by
    have h5 : ¬ k = k' := fun hh => hk hh.symm
    simp [alookup, h5]
  | e :: d => by
    by_cases h4 : e.1 = k'
    · simp [alookup, h4]
    · simp only [List.cons_append]
      rw [show alookup ((e : List Char × α) :: (d ++ [(k, v)])) k'
            = alookup (d ++ [(k, v)]) k' from by simp [alookup, h4],
          show alookup (e :: d) k' = alookup d k' from by simp [alookup, h4]]
      exact alookup_append_single_ne k k' v hk d

theorem alookup_aset_self {α : Type} (d : List (List Char × α))
    (k : List Char) (v : α) : alookup (aset d k v) k = some v := by
  unfold aset
  by_cases hin : d.any (fun e => e.1 = k) = true
  · rw [if_pos hin]
    exact alookup_replace_self k v d hin
  · rw [if_neg hin]
    have h' : d.any (fun e => e.1 = k) = false := by
      revert hin
      cases d.any (fun e => e.1 = k) <;> simp
    exact alookup_append_single_self k v d h'

theorem alookup_aset_ne {α : Type} (d : List (List Char × α))
    (k k' : List Char) (v : α) (hk : k' ≠ k) :
    alookup (aset d k v) k' = alookup d k' := by
  unfold aset
  by_cases hin : d.any (fun e => e.1 = k) = true
  · rw [if_pos hin]
    exact alookup_replace_ne k k' v hk d
  · rw [if_neg hin]
    exact alookup_append_single_ne k k' v hk d

theorem alookup_adel_self {α : Type} (k : List Char) :
    ∀ d : List (List Char × α), alookup (adel d k) k = none
  | [] => rfl
  | e :: d => by
    by_cases he : e.1 = k
    · simp only [adel, List.filter_cons]
      rw [if_neg (by simp [he])]
      exact alookup_adel_self k d
    · simp only [adel, List.filter_cons]
      rw [if_pos (by simp [he])]
      rw [show alookup (e :: List.filter (fun e => e.1 ≠ k) d) k
            = alookup (d.filter (fun e => e.1 ≠ k)) k from by simp [alookup, he]]
      exact alookup_adel_self k d

theorem alookup_adel_ne {α : Type} (k k' : List Char) (hk : k' ≠ k) :
    ∀ d : List (List Char × α), alookup (adel d k) k' = alookup d k'
  | [] => rfl
  | e :: d => by
    by_cases he : e.1 = k
    · have h3 : e.1 ≠ k' := fun hh => hk (he ▸ hh).symm
      simp only [adel, List.filter_cons]
      rw [if_neg (by simp [he])]
      rw [show alookup ((e : List Char × α) :: d) k' = alookup d k' from by
        simp [alookup, h3]]
      exact alookup_adel_ne k k' hk d
    · by_cases h4 : e.1 = k'
      · simp only [adel, List.filter_cons]
        rw [if_pos (by simp [he])]
        simp [alookup, h4]
      · simp only [adel, List.filter_cons]
        rw [if_pos (by simp [he])]
        rw [show alookup (e :: List.filter (fun e => e.1 ≠ k) d) k'
              = alookup (d.filter (fun e => e.1 ≠ k)) k' from by
            simp [alookup, h4],
          show alookup ((e : List Char × α) :: d) k' = alookup d k' from by
            simp [alookup, h4]]
        exact alookup_adel_ne k k' hk d

theorem alookup_some_mem {α : Type} (k : List Char) (v : α) :
    ∀ d : List (List Char × α), alookup d k = some v → (k, v) ∈ d
  | [], h => by simp [alookup] at h
  | e :: d, h => by
    by_cases he : e.1 = k
    · simp only [alookup, if_pos he] at h
      have : e = (k, v) := by
        rcases e with ⟨k0, v0⟩
        simp at he
        simp at h
        simp [he, h]
      simp [this]
    · simp only [alookup, if_neg he] at h
      exact List.mem_cons_of_mem _ (alookup_some_mem k v d h)

theorem mem_aset {α : Type} (d : List (List Char × α)) (k : List Char)
    (v : α) (x : List Char × α) (hx : x ∈ aset d k v) :
    x ∈ d ∨ x = (k, v) := by
  unfold aset at hx
  by_cases hin : d.any (fun e => e.1 = k) = true
  · rw [if_pos hin] at hx
    rcases List.mem_map.mp hx with ⟨y, hy, hxy⟩
    by_cases hyk : y.1 = k
    · right
      rw [← hxy, if_pos hyk]
    · left
      rw [← hxy, if_neg hyk]
      exact hy
  · rw [if_neg hin] at hx
    rcases List.mem_append.mp hx with h | h
    · exact Or.inl h
    · right
      simpa using h

theorem mem_adel {α : Type} (d : List (List Char × α)) (k : List Char)
    (x : List Char × α) (hx : x ∈ adel d k) : x ∈ d :=
  List.mem_of_mem_filter hx

theorem keys_aset_nodup {α : Type} (d : List (List Char × α))
    (k : List Char) (v : α) (h : (d.map Prod.fst).Nodup) :
    ((aset d k v).map Prod.fst).Nodup := by
  unfold aset
  by_cases hin : d.any (fun e => e.1 = k) = true
  · rw [if_pos hin]
    have hmap : (d.map (fun e => if e.1 = k then (k, v) else e)).map Prod.fst
        = d.map Prod.fst := by
      rw [List.map_map]
      apply List.map_congr_left
      intro e _
      by_cases he : e.1 = k
      · simp [he]
      · simp [he]
    rw [hmap]
    exact h
  · rw [if_neg hin]
    rw [List.map_append]
    apply List.Nodup.append h (by simp)
    intro x hx hx'
    simp at hx'
    rcases List.mem_map.mp hx with ⟨e, he, hxe⟩
    apply hin
    apply List.any_eq_true.mpr
    exact ⟨e, he, by simp [hxe, hx']⟩

theorem keys_adel_nodup {α : Type} (d : List (List Char × α))
    (k : List Char) (h : (d.map Prod.fst).Nodup) :
    ((adel d k).map Prod.fst).Nodup := by
  unfold adel
  exact List.Nodup.sublist (List.Sublist.map Prod.fst (List.filter_sublist d)) h

/-! ### `dupdate` lemmas -/

theorem alookup_foldl_aset (k : List Char) :
    ∀ (e : List (List Char × ChanVal)) (d : Dict),
      (e.map Prod.fst).Nodup →
      alookup (e.foldl (fun a p => aset a p.1 p.2) d) k
        = match alookup e k with
          | some v => some v
          | none => alookup d k
  | [], d, _ => by simp [alookup]
  | p :: e, d, hnd => by
    have hnd' : (e.map Prod.fst).Nodup := by
      simp only [List.map_cons, List.nodup_cons] at hnd
      exact hnd.2
    have hnotin : p.1 ∉ e.map Prod.fst := by
      simp only [List.map_cons, List.nodup_cons] at hnd
      exact hnd.1
    rw [List.foldl_cons, alookup_foldl_aset k e (aset d p.1 p.2) hnd']
    by_cases hk : p.1 = k
    · have hek : alookup e k = none := by
        rcases he : alookup e k with _ | v
        · rfl
        · exfalso
          apply hnotin
          rw [hk]
          exact List.mem_map.mpr ⟨(k, v), alookup_some_mem k v e he, rfl⟩
      rw [hek]
      simp only [alookup, if_pos hk]
      rw [hk, alookup_aset_self]
    · simp only [alookup, if_neg hk]
      rcases he : alookup e k with _ | v
      · rw [alookup_aset_ne d p.1 k p.2 (fun hh => hk hh.symm)]
      · rfl

theorem alookup_dupdate (d e : Dict) (k : List Char)
    (h : (e.map Prod.fst).Nodup) :
    alookup (dupdate d e) k
      = match alookup e k with
        | some v => some v
        | none => alookup d k :=
  alookup_foldl_aset k e d h

theorem mem_foldl_aset (x : List Char × ChanVal) :
    ∀ (e : List (List Char × ChanVal)) (d : Dict),
      x ∈ e.foldl (fun a p => aset a p.1 p.2) d → x ∈ d ∨ x ∈ e
  | [], d, h => Or.inl h
  | p :: e, d, h => by
    rw [List.foldl_cons] at h
    rcases mem_foldl_aset x e (aset d p.1 p.2) h with h1 | h1
    · rcases mem_aset d p.1 p.2 x h1 with h2 | h2
      · exact Or.inl h2
      · right
        rw [h2]
        exact List.mem_cons_self p e
    · exact Or.inr (List.mem_cons_of_mem p h1)

theorem mem_dupdate (d e : Dict) (x : List Char × ChanVal)
    (h : x ∈ dupdate d e) : x ∈ d ∨ x ∈ e :=
  mem_foldl_aset x e d h

theorem mem_combineFrags_aux (x : List Char × ChanVal) :
    ∀ (frags : List Packet) (acc : Dict),
      x ∈ frags.foldl (fun a f => dupdate a f.channel_data) acc →
      x ∈ acc ∨ ∃ f ∈ frags, x ∈ f.channel_data
  | [], acc, h => Or.inl h
  | f :: fs, acc, h => by
    rw [List.foldl_cons] at h
    rcases mem_combineFrags_aux x fs (dupdate acc f.channel_data) h with h1 | h1
    · rcases mem_dupdate acc f.channel_data x h1 with h2 | h2
      · exact Or.inl h2
      · exact Or.inr ⟨f, List.mem_cons_self f fs, h2⟩
    · rcases h1 with ⟨g, hg, hx⟩
      exact Or.inr ⟨g, List.mem_cons_of_mem f hg, hx⟩

theorem mem_combineFrags (frags : List Packet) (x : List Char × ChanVal)
    (h : x ∈ combineFrags frags) : ∃ f ∈ frags, x ∈ f.channel_data := by
  rcases mem_combineFrags_aux x frags [] h with h1 | h1
  · simp at h1
  · exact h1

theorem alookup_combineFrags_aux (k : List Char) :
    ∀ (frags : List Packet) (acc : Dict),
      (∀ f ∈ frags, (f.channel_data.map Prod.fst).Nodup) →
      alookup (frags.foldl (fun a f => dupdate a f.channel_data) acc) k
        = frags.foldl
            (fun o f =>
              match alookup f.channel_data k with
              | some v => some v
              | none => o)
            (alookup acc k)
  | [], acc, _ => rfl
  | f :: fs, acc, h => by
    rw [List.foldl_cons, List.foldl_cons]
    rw [alookup_combineFrags_aux k fs (dupdate acc f.channel_data)
      (fun g hg => h g (List.mem_cons_of_mem f hg))]
    congr 1
    rw [alookup_dupdate acc f.channel_data k (h f (List.mem_cons_self f fs))]

/-- On fragments whose channel dicts have unique keys (as every Python
dict does), the code's merged dict looks up to the last-write-wins
value. -/
theorem alookup_combineFrags (frags : List Packet) (k : List Char)
    (h : ∀ f ∈ frags, (f.channel_data.map Prod.fst).Nodup) :
    alookup (combineFrags frags) k = lastWriteWins frags k := by
  unfold combineFrags lastWriteWins
  rw [alookup_combineFrags_aux k frags [] h]
  rfl

/-! ### Token-processing lemmas -/

theorem count_eq_pyStrip (t : List Char) :
    (pyStrip t).count '=' = t.count '=' :=
  count_pyStrip '=' (by decide) t

theorem mem_of_count_eq_pos (t : List Char) (h : 1 ≤ t.count '=') :
    '=' ∈ t :=
  List.count_pos_iff.mp h

theorem pct_none_absorb : ∀ ts : List (List Char),
    ts.foldl parse_channel_token none = none
  | [] => rfl
  | t :: ts => by
    rw [List.foldl_cons]
    exact pct_none_absorb ts

theorem pct_of_no_eq (d : Dict) (t : List Char) (h : '=' ∉ t) :
    parse_channel_token (some d) t = some d := by
  simp [parse_channel_token, h]

theorem pct_of_one_eq (d : Dict) (t k v : List Char)
    (h : splitCh '=' (pyStrip t) = [k, v]) :
    parse_channel_token (some d) t =
      some (if pyStrip v = "NaN".data then aset d k none
            else if isPyFloat v then aset d k (some v)
            else d) := by
  have hlen : (splitCh '=' (pyStrip t)).length = (pyStrip t).count '=' + 1 :=
    splitCh_length '=' (pyStrip t)
  rw [h] at hlen
  simp at hlen
  have hcnt : t.count '=' = 1 := by
    rw [← count_eq_pyStrip]
    omega
  have hmem : '=' ∈ t := mem_of_count_eq_pos t (by omega)
  simp [parse_channel_token, hmem, h]

theorem pct_eq_none_iff (d : Dict) (t : List Char) :
    parse_channel_token (some d) t = none ↔ 2 ≤ t.count '=' := by
  have hlen : (splitCh '=' (pyStrip t)).length = t.count '=' + 1 := by
    rw [splitCh_length, count_eq_pyStrip]
  constructor
  · intro hnone
    by_contra hle
    have hle1 : t.count '=' ≤ 1 := by omega
    by_cases hmem : '=' ∈ t
    · have h1 : 1 ≤ t.count '=' := List.count_pos_iff.mpr hmem
      have hcnt : t.count '=' = 1 := by omega
      rw [hcnt] at hlen
      rcases hs : splitCh '=' (pyStrip t) with _ | ⟨a, _ | ⟨b, _ | ⟨c, r⟩⟩⟩ <;>
        rw [hs] at hlen <;> simp at hlen
      rw [pct_of_one_eq d t a b hs] at hnone
      cases hnone
    · rw [pct_of_no_eq d t hmem] at hnone
      cases hnone
  · intro h2
    have hmem : '=' ∈ t := mem_of_count_eq_pos t (by omega)
    rcases hs : splitCh '=' (pyStrip t) with _ | ⟨a, _ | ⟨b, _ | ⟨c, r⟩⟩⟩ <;>
      rw [hs] at hlen
    · exact absurd hs (splitCh_ne_nil '=' (pyStrip t))
    · simp at hlen; omega
    · simp at hlen; omega
    · simp [parse_channel_token, hmem, hs]

theorem pct_some_of_le_one (d : Dict) (t : List Char)
    (h : t.count '=' ≤ 1) :
    ∃ d', parse_channel_token (some d) t = some d' := by
  rcases hp : parse_channel_token (some d) t with _ | d'
  · have := (pct_eq_none_iff d t).mp hp
    omega
  · exact ⟨d', rfl⟩

theorem foldl_pct_eq_none_iff :
    ∀ (ts : List (List Char)) (d : Dict),
      ts.foldl parse_channel_token (some d) = none ↔
        ∃ t ∈ ts, 2 ≤ t.count '='
  | [], d => by simp
  | t :: ts, d => by
    rw [List.foldl_cons]
    by_cases h2 : 2 ≤ t.count '='
    · rw [(pct_eq_none_iff d t).mpr h2, pct_none_absorb ts]
      simp only [true_iff]
      exact ⟨t, List.mem_cons_self t ts, h2⟩
    · rcases pct_some_of_le_one d t (by omega) with ⟨d', hd'⟩
      rw [hd', foldl_pct_eq_none_iff ts d']
      constructor
      · rintro ⟨u, hu, hcu⟩
        exact ⟨u, List.mem_cons_of_mem t hu, hcu⟩
      · rintro ⟨u, hu, hcu⟩
        rcases List.mem_cons.mp hu with he | hm
        · exact absurd (he ▸ hcu) h2
        · exact ⟨u, hm, hcu⟩

theorem parse_channels_eq_none_iff (cp : List Char) :
    parse_channels cp = none ↔ ∃ t ∈ splitCh ';' cp, 2 ≤ t.count '=' := by
  unfold parse_channels
  by_cases hcp : cp = []
  · subst hcp
    simp [splitCh]
  · rw [if_neg hcp]
    exact foldl_pct_eq_none_iff (splitCh ';' cp) []

/-! ### Receive-loop lemmas -/

theorem start_step_nonterm (b : Buffer) (p : Packet)
    (hp : p.is_end_marker = false) :
    start_step b p =
      (aset b p.serial ((alookup b p.serial).getD [] ++ [p]), none) := by
  simp [start_step, hp]

theorem start_step_term_pend (b : Buffer) (term : Packet)
    (pend : List Packet) (ht : term.is_end_marker = true)
    (hb : alookup b term.serial = some pend) :
    start_step b term =
      (adel b term.serial,
       some ⟨term.serial, combineFrags pend,
             pend.map (fun f => f.raw_packet)⟩) := by
  simp [start_step, ht, hb, process_complete_dataset]

theorem start_step_term_nopend (b : Buffer) (term : Packet)
    (ht : term.is_end_marker = true)
    (hb : alookup b term.serial = none) :
    start_step b term = (b, none) := by
  simp [start_step, ht, hb]

theorem start_cons (b : Buffer) (p : Packet) (ps : List Packet) :
    start b (p :: ps) =
      ((start (start_step b p).1 ps).1,
       (start_step b p).2.toList ++ (start (start_step b p).1 ps).2) := rfl

theorem start_frags_term (D : List Char) (term : Packet)
    (ht1 : term.serial = D) (ht2 : term.is_end_marker = true) :
    ∀ (frags : List Packet) (b : Buffer) (pend : List Packet),
      alookup b D = some pend →
      (∀ f ∈ frags, f.serial = D ∧ f.is_end_marker = false) →
      (start b (frags ++ [term])).2 =
        [⟨D, combineFrags (pend ++ frags),
          (pend ++ frags).map (fun f => f.raw_packet)⟩]
      ∧ alookup (start b (frags ++ [term])).1 D = none
  | [], b, pend, hb, _ => by
    have hb' : alookup b term.serial = some pend := by rw [ht1]; exact hb
    have hstep := start_step_term_pend b term pend ht2 hb'
    rw [List.nil_append, start_cons, hstep]
    constructor
    · simp [start, ht1]
    · simp only [start]
      rw [ht1]
      exact alookup_adel_self D b
  | f :: fs, b, pend, hb, hf => by
    have hfD : f.serial = D := (hf f (List.mem_cons_self f fs)).1
    have hfe : f.is_end_marker = false := (hf f (List.mem_cons_self f fs)).2
    have hstep := start_step_nonterm b f hfe
    have hget : (alookup b f.serial).getD [] = pend := by rw [hfD, hb]; rfl
    have hb' : alookup (aset b f.serial (pend ++ [f])) D = some (pend ++ [f]) := by
      rw [hfD]
      exact alookup_aset_self b D (pend ++ [f])
    have ih := start_frags_term D term ht1 ht2 fs
      (aset b f.serial (pend ++ [f])) (pend ++ [f]) hb'
      (fun g hg => hf g (List.mem_cons_of_mem f hg))
    rw [List.cons_append, start_cons, hstep, hget]
    simp only [Option.toList_none, List.nil_append]
    rw [show pend ++ f :: fs = (pend ++ [f]) ++ fs from by simp]
    exact ih

/-- Well-formedness of the packet buffer relative to a provenance
predicate `P`: keys are unique (one PendingTransmission per device)
and every stored packet satisfies `P` and is filed under its own
serial. -/
def BufInv (b : Buffer) (P : Packet → Prop) : Prop :=
  ((b.map Prod.fst).Nodup) ∧
    ∀ e ∈ b, ∀ p ∈ e.2, p.serial = e.1 ∧ P p

theorem BufInv_nil (P : Packet → Prop) : BufInv [] P :=
  ⟨List.nodup_nil, by intro e he; simp at he⟩

theorem BufInv_pend (b : Buffer) (P : Packet → Prop) (h : BufInv b P)
    (k : List Char) (pend : List Packet) (hk : alookup b k = some pend) :
    ∀ p ∈ pend, p.serial = k ∧ P p := by
  intro p hp
  exact h.2 (k, pend) (alookup_some_mem k pend b hk) p hp

theorem start_step_inv (b : Buffer) (P : Packet → Prop) (p : Packet)
    (hb : BufInv b P) (hp : P p) :
    BufInv (start_step b p).1 P ∧
      ∀ r, (start_step b p).2 = some r →
        (∀ kv ∈ r.channels, ∃ q, P q ∧ q.serial = r.device_id ∧
          kv ∈ q.channel_data) ∧
        (∀ t ∈ r.raw_fragments, ∃ q, P q ∧ q.serial = r.device_id ∧
          q.raw_packet = t) := by
  rcases he : p.is_end_marker with _ | _
  · -- data packet: append to the device's pending list
    rw [start_step_nonterm b p he]
    refine ⟨⟨keys_aset_nodup b p.serial _ hb.1, ?_⟩, by intro r hr; cases hr⟩
    intro e hme q hq
    rcases mem_aset b p.serial _ e hme with hin | hnew
    · exact hb.2 e hin q hq
    · subst hnew
      rcases List.mem_append.mp hq with hold | hself
      · rcases hg : alookup b p.serial with _ | pend
        · rw [hg] at hold; simp at hold
        · rw [hg] at hold
          simp only [Option.getD_some] at hold
          exact BufInv_pend b P hb p.serial pend hg q hold
      · simp at hself
        subst hself
        exact ⟨rfl, hp⟩
  · -- end marker
    rcases hg : alookup b p.serial with _ | pend
    · rw [start_step_term_nopend b p he hg]
      exact ⟨hb, by intro r hr; cases hr⟩
    · rw [start_step_term_pend b p pend he hg]
      refine ⟨⟨keys_adel_nodup b p.serial hb.1, ?_⟩, ?_⟩
      · intro e hme q hq
        exact hb.2 e (mem_adel b p.serial e hme) q hq
      · intro r hr
        injection hr with hr
        subst hr
        constructor
        · intro kv hkv
          rcases mem_combineFrags pend kv hkv with ⟨f, hf, hkvf⟩
          rcases BufInv_pend b P hb p.serial pend hg f hf with ⟨hs, hP⟩
          exact ⟨f, hP, hs, hkvf⟩
        · intro t ht
          rcases List.mem_map.mp ht with ⟨f, hf, hft⟩
          rcases BufInv_pend b P hb p.serial pend hg f hf with ⟨hs, hP⟩
          exact ⟨f, hP, hs, hft⟩

theorem start_inv (P : Packet → Prop) :
    ∀ (ps : List Packet) (b : Buffer), BufInv b P → (∀ p ∈ ps, P p) →
      BufInv (start b ps).1 P ∧
        ∀ r ∈ (start b ps).2,
          (∀ kv ∈ r.channels, ∃ q, P q ∧ q.serial = r.device_id ∧
            kv ∈ q.channel_data) ∧
          (∀ t ∈ r.raw_fragments, ∃ q, P q ∧ q.serial = r.device_id ∧
            q.raw_packet = t)
  | [], b, hb, _ => ⟨hb, by intro r hr; simp [start] at hr⟩
  | p :: ps, b, hb, hps => by
    have hstep := start_step_inv b P p hb (hps p (List.mem_cons_self p ps))
    have ih := start_inv P ps (start_step b p).1 hstep.1
      (fun q hq => hps q (List.mem_cons_of_mem p hq))
    rw [start_cons]
    refine ⟨ih.1, ?_⟩
    intro r hr
    rcases List.mem_append.mp hr with h1 | h1
    · rcases ho : (start_step b p).2 with _ | r0
      · rw [ho] at h1; simp at h1
      · rw [ho] at h1
        simp only [Option.toList_some, List.mem_singleton] at h1
        subst h1
        exact hstep.2 r ho
    · exact ih.2 r h1

theorem start_step_other_device (b : Buffer) (p : Packet) (d : List Char)
    (hd : d ≠ p.serial) :
    alookup (start_step b p).1 d = alookup b d := by
  rcases he : p.is_end_marker with _ | _
  · rw [start_step_nonterm b p he]
    exact alookup_aset_ne b p.serial d _ hd
  · rcases hg : alookup b p.serial with _ | pend
    · rw [start_step_term_nopend b p he hg]
    · rw [start_step_term_pend b p pend he hg]
      exact alookup_adel_ne p.serial d hd b

/-! ### Structure of `parse_packet` -/

theorem takeWhile_and {α : Type} (p q : α → Bool) :
    ∀ l : List α,
      List.takeWhile p (List.takeWhile q l)
        = List.takeWhile (fun a => q a && p a) l
  | [] => rfl
  | a :: l => by
    by_cases hq : q a = true
    · by_cases hp : p a = true
      · simp only [List.takeWhile_cons, hq, hp, if_true, Bool.and_self]
        rw [takeWhile_and p q l]
      · have hp' : p a = false := by revert hp; cases p a <;> simp
        simp [List.takeWhile_cons, hq, hp']
    · have hq' : q a = false := by revert hq; cases q a <;> simp
      simp [List.takeWhile_cons, hq']

theorem splitCh_cons_self (c : Char) (l : List Char) :
    splitCh c (c :: l) = [] :: splitCh c l := by
  simp [splitCh]

theorem splitCh_short_iff (c : Char) (s : List Char) :
    (splitCh c s).length < 2 ↔ c ∉ s := by
  rw [splitCh_length]
  constructor
  · intro h
    have : s.count c = 0 := by omega
    exact List.count_eq_zero.mp this
  · intro h
    have : s.count c = 0 := List.count_eq_zero.mpr h
    omega

theorem parse_packet_no_lt (s : List Char) (h : '<' ∉ s) :
    parse_packet s = none := by
  unfold parse_packet
  rw [if_pos ((splitCh_short_iff '<' s).mpr h)]

theorem parse_packet_no_sendVal (s : List Char)
    (h : containsSendVal (contentOf s) = false) :
    parse_packet s = none := by
  unfold parse_packet
  by_cases h1 : (splitCh '<' s).length < 2
  · rw [if_pos h1]
  · rw [if_neg h1]
    simp [h]

theorem parse_packet_channels_fail (s : List Char)
    (h : parse_channels (pyStrip (stripSendVal (contentOf s))) = none) :
    parse_packet s = none := by
  unfold parse_packet
  by_cases h1 : (splitCh '<' s).length < 2
  · rw [if_pos h1]
  · rw [if_neg h1]
    by_cases hsv : containsSendVal (contentOf s)
    · simp [hsv, h]
    · simp [hsv]

theorem parse_packet_eq_some (s : List Char)
    (h1 : ¬ (splitCh '<' s).length < 2)
    (hsv : containsSendVal (contentOf s) = true)
    (d : Dict)
    (hpc : parse_channels (pyStrip (stripSendVal (contentOf s))) = some d) :
    parse_packet s =
      some ⟨(splitCh '<' s).headD [], d, checksumOf s, s,
            (pyStrip (pyStrip (stripSendVal (contentOf s)))).isEmpty⟩ := by
  unfold parse_packet
  rw [if_neg h1]
  simp [hsv, hpc]

theorem parse_packet_some_inv (s : List Char) (p : Packet)
    (h : parse_packet s = some p) :
    ¬ (splitCh '<' s).length < 2 ∧
    containsSendVal (contentOf s) = true ∧
    ∃ d, parse_channels (pyStrip (stripSendVal (contentOf s))) = some d ∧
      p = ⟨(splitCh '<' s).headD [], d, checksumOf s, s,
           (pyStrip (pyStrip (stripSendVal (contentOf s)))).isEmpty⟩ := by
  by_cases h1 : (splitCh '<' s).length < 2
  · rw [parse_packet_no_lt s ((splitCh_short_iff '<' s).mp h1)] at h
    cases h
  · by_cases hsv : containsSendVal (contentOf s)
    · rcases hpc : parse_channels (pyStrip (stripSendVal (contentOf s)))
        with _ | d
      · rw [parse_packet_channels_fail s hpc] at h
        cases h
      · rw [parse_packet_eq_some s h1 hsv d hpc] at h
        injection h with h
        exact ⟨h1, hsv, d, rfl, h.symm⟩
    · have hsv' : containsSendVal (contentOf s) = false := by
        revert hsv; cases containsSendVal (contentOf s) <;> simp
      rw [parse_packet_no_sendVal s hsv'] at h
      cases h

theorem getD_zero_eq_headD {α : Type} (L : List α) (d : α) :
    L.getD 0 d = L.headD d := by
  cases L <;> rfl

theorem contentOf_of_mem (s : List Char) (h : '<' ∈ s) :
    contentOf s =
      ((s.dropWhile (fun a => a != '<')).tail).takeWhile
        (fun a => a != '<' && a != '>') := by
  unfold contentOf
  rw [splitCh_of_mem '<' s h, List.getD_cons_succ, getD_zero_eq_headD,
    splitCh_headD, splitCh_headD, takeWhile_and]

theorem checksumOf_eq (s : List Char) :
    checksumOf s = (s.reverse.takeWhile (fun a => a != '>')).reverse :=
  splitCh_getLastD '>' s

/-! ### Claims -/

/-- C1: starting from a state with no pending transmission for device
`D`, ingesting a nonempty sequence of non-terminator fragments for `D`
followed by a terminator for `D` produces exactly one Reading whose
channel map is the key-wise last-write-wins merge of the fragments'
channel maps in arrival order, whose raw_fragments are the fragments'
raw texts in arrival order (terminator excluded), and `D`'s pending
entry is removed afterwards. -/
theorem C1_complete_transmission (b : Buffer) (D : List Char)
    (frags : List Packet) (term : Packet)
    (hb : alookup b D = none) (hne : frags ≠ [])
    (hf : ∀ f ∈ frags, f.serial = D ∧ f.is_end_marker = false)
    (hkeys : ∀ f ∈ frags, (f.channel_data.map Prod.fst).Nodup)
    (ht1 : term.serial = D) (ht2 : term.is_end_marker = true) :
    (start b (frags ++ [term])).2 =
      [⟨D, combineFrags frags, frags.map (fun f => f.raw_packet)⟩] ∧
    (∀ k, alookup (combineFrags frags) k = lastWriteWins frags k) ∧
    alookup (start b (frags ++ [term])).1 D = none := by
  rcases frags with _ | ⟨f, fs⟩
  · exact absurd rfl hne
  · have hfD : f.serial = D := (hf f (List.mem_cons_self f fs)).1
    have hfe : f.is_end_marker = false := (hf f (List.mem_cons_self f fs)).2
    have hget : (alookup b f.serial).getD [] = [] := by rw [hfD, hb]; rfl
    have hstep := start_step_nonterm b f hfe
    rw [hget] at hstep
    have hb' : alookup (aset b f.serial [f]) D = some [f] := by
      rw [hfD]
      exact alookup_aset_self b D [f]
    have haux := start_frags_term D term ht1 ht2 fs
      (aset b f.serial [f]) [f] hb'
      (fun g hg => hf g (List.mem_cons_of_mem f hg))
    simp only [List.singleton_append] at haux
    rw [List.cons_append, start_cons, hstep]
    simp only [List.nil_append, Option.toList_none]
    exact ⟨haux.1, fun k => alookup_combineFrags (f :: fs) k hkeys, haux.2⟩

/-- C1 witness: a concrete two-fragment transmission for device `A`
completed by a terminator, run from the empty buffer. -/
theorem C1_witness :
    (alookup ([] : Buffer) "A".data = none ∧
     [(⟨"A".data, [("0".data, some "1".data)], "C".data, "r1".data, false⟩ : Packet),
      ⟨"A".data, [("0".data, some "2".data), ("1".data, none)], "C".data, "r2".data, false⟩] ≠ [] ∧
     (∀ f ∈ [(⟨"A".data, [("0".data, some "1".data)], "C".data, "r1".data, false⟩ : Packet),
        ⟨"A".data, [("0".data, some "2".data), ("1".data, none)], "C".data, "r2".data, false⟩],
        f.serial = "A".data ∧ f.is_end_marker = false) ∧
     (∀ f ∈ [(⟨"A".data, [("0".data, some "1".data)], "C".data, "r1".data, false⟩ : Packet),
        ⟨"A".data, [("0".data, some "2".data), ("1".data, none)], "C".data, "r2".data, false⟩],
        (f.channel_data.map Prod.fst).Nodup) ∧
     (⟨"A".data, [], "C".data, "t".data, true⟩ : Packet).serial = "A".data ∧
     (⟨"A".data, [], "C".data, "t".data, true⟩ : Packet).is_end_marker = true) ∧
    ((start ([] : Buffer)
        ([(⟨"A".data, [("0".data, some "1".data)], "C".data, "r1".data, false⟩ : Packet),
          ⟨"A".data, [("0".data, some "2".data), ("1".data, none)], "C".data, "r2".data, false⟩]
         ++ [⟨"A".data, [], "C".data, "t".data, true⟩])).2 =
      [⟨"A".data,
        combineFrags
          [⟨"A".data, [("0".data, some "1".data)], "C".data, "r1".data, false⟩,
           ⟨"A".data, [("0".data, some "2".data), ("1".data, none)], "C".data, "r2".data, false⟩],
        [(⟨"A".data, [("0".data, some "1".data)], "C".data, "r1".data, false⟩ : Packet).raw_packet,
         (⟨"A".data, [("0".data, some "2".data), ("1".data, none)], "C".data, "r2".data, false⟩ : Packet).raw_packet]⟩] ∧
     (∀ k, alookup (combineFrags
          [⟨"A".data, [("0".data, some "1".data)], "C".data, "r1".data, false⟩,
           ⟨"A".data, [("0".data, some "2".data), ("1".data, none)], "C".data, "r2".data, false⟩]) k
        = lastWriteWins
          [⟨"A".data, [("0".data, some "1".data)], "C".data, "r1".data, false⟩,
           ⟨"A".data, [("0".data, some "2".data), ("1".data, none)], "C".data, "r2".data, false⟩] k) ∧
     alookup (start ([] : Buffer)
        ([(⟨"A".data, [("0".data, some "1".data)], "C".data, "r1".data, false⟩ : Packet),
          ⟨"A".data, [("0".data, some "2".data), ("1".data, none)], "C".data, "r2".data, false⟩]
         ++ [⟨"A".data, [], "C".data, "t".data, true⟩])).1 "A".data = none) :=
  ⟨⟨by decide, by decide, by decide, by decide, by decide, by decide⟩,
   C1_complete_transmission [] "A".data _ _ (by decide) (by decide)
     (by decide) (by decide) (by decide) (by decide)⟩

/-- C2: the claim (and spec step 4) describes the intended behavior —
bracketed content without the `sendVal` marker should itself be the
channel-assignment body — but the code cannot perform it: line 90
(`'is_end_marker': bool(not channels_part.strip())`) runs on every
successful path yet `channels_part` is only assigned inside the
`if 'sendVal' in content` branch, so the non-`sendVal` path always
raises `UnboundLocalError`, which the `except` turns into `None` and
the datagram is dropped.  This theorem evaluates the embedded parser
at the failing input `DEV<0=1.5>CHK`, whose bracketed content `0=1.5`
would decode to channels `{0: 1.5}` under the spec's step 4. -/
theorem C2_bug_eval : parse_packet ("DEV<0=1.5>CHK".data) = none := by
  decide

/-- C3 counterexample: `DEV<sendVal 0=1.5` has a `<` but no `>`, yet
decoding succeeds (the claim says a missing `>` fails with
`MalformedFrame`): `split('>')` simply returns the whole remainder as
element 0 and the whole payload as element -1. -/
theorem C3_counterexample :
    parse_packet ("DEV<sendVal 0=1.5".data)
      = some ⟨"DEV".data, [("0".data, some "1.5".data)],
              "DEV<sendVal 0=1.5".data, "DEV<sendVal 0=1.5".data, false⟩ := by
  decide

/-- C3 (amended): at the text level, decoding fails exactly when the
payload has no `<`, or the bracketed content does not contain
`sendVal`, or some `;`-separated token of the channel body contains
two or more `=` characters.  A missing `>` is not a failure cause. -/
theorem C3_failure_characterization (s : List Char) :
    parse_packet s = none ↔
      '<' ∉ s ∨ containsSendVal (contentOf s) = false ∨
        ∃ t ∈ splitCh ';' (pyStrip (stripSendVal (contentOf s))),
          2 ≤ t.count '=' := by
  by_cases hlt : '<' ∈ s
  · by_cases hsv : containsSendVal (contentOf s) = true
    · rcases hpc : parse_channels (pyStrip (stripSendVal (contentOf s)))
        with _ | d
      · have h1 : parse_packet s = none := parse_packet_channels_fail s hpc
        have h2 := (parse_channels_eq_none_iff _).mp hpc
        simp only [h1, true_iff]
        exact Or.inr (Or.inr h2)
      · have h1 : parse_packet s =
            some ⟨(splitCh '<' s).headD [], d, checksumOf s, s,
                  (pyStrip (pyStrip (stripSendVal (contentOf s)))).isEmpty⟩ :=
          parse_packet_eq_some s
            (by rw [splitCh_short_iff]; simp [hlt]) hsv d hpc
        rw [h1]
        simp only [reduceCtorEq, false_iff]
        push_neg
        refine ⟨hlt, by simp [hsv], ?_⟩
        intro t hts
        by_contra hc
        push_neg at hc
        have := (parse_channels_eq_none_iff
          (pyStrip (stripSendVal (contentOf s)))).mpr ⟨t, hts, hc⟩
        rw [hpc] at this
        cases this
    · have hsv' : containsSendVal (contentOf s) = false := by
        revert hsv; cases containsSendVal (contentOf s) <;> simp
      rw [parse_packet_no_sendVal s hsv']
      simp [hsv']
  · rw [parse_packet_no_lt s hlt]
    simp [hlt]

/-- C4 counterexample: in the body token `1=2=3` the (spec-level)
value text `2=3` is not a float, yet decoding of the whole fragment
fails (`None`) rather than merely omitting the channel: the tuple
unpacking `channel_num, value = channel.strip().split('=')` raises an
uncaught ValueError. -/
theorem C4_counterexample : parse_packet ("D<sendVal 1=2=3>C".data) = none := by
  decide

/-- C4 (amended): for a token whose stripped text splits on `=` into
exactly two pieces, the token never fails the fragment: value text
`NaN` (stripped) maps the channel to an absent value, any other value
text accepted by Python float parsing maps it to that value, and a
value text that fails float parsing leaves the dictionary unchanged
(the channel is omitted).  Tokens with two or more `=` abort the whole
fragment instead. -/
theorem C4_token_handling (d : Dict) (t k v : List Char)
    (h : splitCh '=' (pyStrip t) = [k, v]) :
    parse_channel_token (some d) t =
      some (if pyStrip v = "NaN".data then aset d k none
            else if isPyFloat v then aset d k (some v)
            else d) :=
  pct_of_one_eq d t k v h

/-- C4 witness: three concrete tokens — a NaN channel, an unparsable
value (channel omitted, fragment kept), and a numeric value. -/
theorem C4_witness :
    (splitCh '=' (pyStrip " 7 = NaN ".data) = ["7 ".data, " NaN".data] ∧
      parse_channel_token (some []) " 7 = NaN ".data =
        some (if pyStrip " NaN".data = "NaN".data
              then aset ([] : Dict) "7 ".data none
              else if isPyFloat " NaN".data
              then aset ([] : Dict) "7 ".data (some " NaN".data)
              else [])) ∧
    (splitCh '=' (pyStrip "0=abc".data) = ["0".data, "abc".data] ∧
      parse_channel_token (some []) "0=abc".data =
        some (if pyStrip "abc".data = "NaN".data
              then aset ([] : Dict) "0".data none
              else if isPyFloat "abc".data
              then aset ([] : Dict) "0".data (some "abc".data)
              else [])) :=
  ⟨⟨by decide, C4_token_handling [] " 7 = NaN ".data "7 ".data " NaN".data
      (by decide)⟩,
   ⟨by decide, C4_token_handling [] "0=abc".data "0".data "abc".data
      (by decide)⟩⟩

/-- C5 counterexample: `DEV<sendVal x>CHK` decodes to a Fragment with
an empty channel map whose `is_end_marker` is false (the token `x`
has no `=` so it is skipped, but the body is nonempty), refuting
"empty channels implies terminator". -/
theorem C5_counterexample :
    parse_packet ("DEV<sendVal x>CHK".data)
      = some ⟨"DEV".data, [], "CHK".data,
              "DEV<sendVal x>CHK".data, false⟩ := by
  decide

/-- C5 (amended): only one direction of the claimed invariant holds:
every decoded Fragment marked as a terminator has an empty channel
map.  (The converse fails: a nonempty body with no parsable
assignment gives an empty map with `is_end_marker = false`.) -/
theorem C5_terminator_has_no_channels (s : List Char) (p : Packet)
    (hp : parse_packet s = some p) (he : p.is_end_marker = true) :
    p.channel_data = [] := by
  rcases parse_packet_some_inv s p hp with ⟨h1, hsv, d, hpc, hpe⟩
  subst hpe
  simp only [pyStrip_idem] at he
  have hcp : pyStrip (stripSendVal (contentOf s)) = [] :=
    List.isEmpty_iff.mp he
  rw [hcp] at hpc
  have : some ([] : Dict) = some d := by
    rw [← hpc]; rfl
  injection this with this
  simp [← this]

/-- C5 witness: a concrete terminator fragment. -/
theorem C5_witness :
    parse_packet ("DEV1<sendVal >CHK".data)
      = some ⟨"DEV1".data, [], "CHK".data, "DEV1<sendVal >CHK".data, true⟩ ∧
    (⟨"DEV1".data, [], "CHK".data, "DEV1<sendVal >CHK".data,
      true⟩ : Packet).is_end_marker = true ∧
    (⟨"DEV1".data, [], "CHK".data, "DEV1<sendVal >CHK".data,
      true⟩ : Packet).channel_data = [] :=
  ⟨by decide, by decide,
   C5_terminator_has_no_channels ("DEV1<sendVal >CHK".data) _ (by decide)
     (by decide)⟩

/-- C6: a terminator for a device with no pending transmission
produces no Reading and leaves the buffer exactly as it was (in
particular no entry is created for that device). -/
theorem C6_terminator_noop (b : Buffer) (term : Packet)
    (ht : term.is_end_marker = true)
    (hb : alookup b term.serial = none) :
    start_step b term = (b, none) :=
  start_step_term_nopend b term ht hb

/-- C6 witness: a concrete terminator for device `B` against a buffer
holding only device `A`. -/
theorem C6_witness :
    ((⟨"B".data, [], "C".data, "t".data, true⟩ : Packet).is_end_marker = true ∧
     alookup [("A".data,
        [(⟨"A".data, [], "C".data, "r".data, false⟩ : Packet)])]
       (⟨"B".data, [], "C".data, "t".data, true⟩ : Packet).serial = none) ∧
    start_step
        [("A".data, [(⟨"A".data, [], "C".data, "r".data, false⟩ : Packet)])]
        ⟨"B".data, [], "C".data, "t".data, true⟩
      = ([("A".data, [(⟨"A".data, [], "C".data, "r".data, false⟩ : Packet)])],
         none) :=
  ⟨⟨by decide, by decide⟩,
   C6_terminator_noop
     [("A".data, [(⟨"A".data, [], "C".data, "r".data, false⟩ : Packet)])]
     ⟨"B".data, [], "C".data, "t".data, true⟩ (by decide) (by decide)⟩

/-- C7: for any interleaved stream from two distinct devices, ingesting
a fragment never touches another device's pending entry, the buffer
never holds two pending transmissions for one device (after any
prefix), and every produced Reading draws its channel data and raw
texts only from fragments bearing its own device identity. -/
theorem C7_buffer_isolation (D1 D2 : List Char) (ps : List Packet)
    (hD : D1 ≠ D2)
    (hps : ∀ p ∈ ps, p.serial = D1 ∨ p.serial = D2) :
    (∀ (b : Buffer) (p : Packet) (d : List Char), d ≠ p.serial →
        alookup (start_step b p).1 d = alookup b d) ∧
    (∀ n, (((start ([] : Buffer) (ps.take n)).1.map Prod.fst).Nodup)) ∧
    (∀ r ∈ (start ([] : Buffer) ps).2,
        (∀ kv ∈ r.channels, ∃ p ∈ ps, p.serial = r.device_id ∧
          kv ∈ p.channel_data) ∧
        (∀ t ∈ r.raw_fragments, ∃ p ∈ ps, p.serial = r.device_id ∧
          p.raw_packet = t)) := by
  refine ⟨fun b p d hd => start_step_other_device b p d hd, ?_, ?_⟩
  · intro n
    exact (start_inv (fun p => p ∈ ps) (ps.take n) [] (BufInv_nil _)
      (fun p hp => List.take_subset n ps hp)).1.1
  · intro r hr
    have h := (start_inv (fun p => p ∈ ps) ps [] (BufInv_nil _)
      (fun _ hp => hp)).2 r hr
    exact ⟨fun kv hkv => h.1 kv hkv, fun t ht => h.2 t ht⟩

/-- C7 witness: a concrete interleaving of devices `A` and `B`. -/
theorem C7_witness :
    ("A".data ≠ "B".data ∧
     (∀ p ∈ [(⟨"A".data, [("0".data, some "1".data)], "C".data, "a1".data, false⟩ : Packet),
        ⟨"B".data, [("0".data, some "9".data)], "C".data, "b1".data, false⟩,
        ⟨"A".data, [], "C".data, "a2".data, true⟩,
        ⟨"B".data, [], "C".data, "b2".data, true⟩],
        p.serial = "A".data ∨ p.serial = "B".data)) ∧
    ((∀ (b : Buffer) (p : Packet) (d : List Char), d ≠ p.serial →
        alookup (start_step b p).1 d = alookup b d) ∧
     (∀ n, (((start ([] : Buffer)
        ([(⟨"A".data, [("0".data, some "1".data)], "C".data, "a1".data, false⟩ : Packet),
          ⟨"B".data, [("0".data, some "9".data)], "C".data, "b1".data, false⟩,
          ⟨"A".data, [], "C".data, "a2".data, true⟩,
          ⟨"B".data, [], "C".data, "b2".data, true⟩].take n)).1.map Prod.fst).Nodup)) ∧
     (∀ r ∈ (start ([] : Buffer)
        [(⟨"A".data, [("0".data, some "1".data)], "C".data, "a1".data, false⟩ : Packet),
         ⟨"B".data, [("0".data, some "9".data)], "C".data, "b1".data, false⟩,
         ⟨"A".data, [], "C".data, "a2".data, true⟩,
         ⟨"B".data, [], "C".data, "b2".data, true⟩]).2,
        (∀ kv ∈ r.channels, ∃ p ∈
          [(⟨"A".data, [("0".data, some "1".data)], "C".data, "a1".data, false⟩ : Packet),
           ⟨"B".data, [("0".data, some "9".data)], "C".data, "b1".data, false⟩,
           ⟨"A".data, [], "C".data, "a2".data, true⟩,
           ⟨"B".data, [], "C".data, "b2".data, true⟩],
          p.serial = r.device_id ∧ kv ∈ p.channel_data) ∧
        (∀ t ∈ r.raw_fragments, ∃ p ∈
          [(⟨"A".data, [("0".data, some "1".data)], "C".data, "a1".data, false⟩ : Packet),
           ⟨"B".data, [("0".data, some "9".data)], "C".data, "b1".data, false⟩,
           ⟨"A".data, [], "C".data, "a2".data, true⟩,
           ⟨"B".data, [], "C".data, "b2".data, true⟩],
          p.serial = r.device_id ∧ p.raw_packet = t))) :=
  ⟨⟨by decide, by decide⟩,
   C7_buffer_isolation "A".data "B".data _ (by decide) (by decide)⟩

/-- C8: decoding is deterministic — `parse_packet` is a pure function
of the payload text, so the same bytes always yield the same result. -/
theorem C8_decode_deterministic (s : List Char) :
    parse_packet s = parse_packet s := rfl

/-- C9 counterexample: in `A<sendVal<0=9>x>CHK` the text after the
first `<` up to the first `>` is `sendVal<0=9`, so the claim predicts
channels `{0: 9.0}` and no terminator; the code instead truncates the
bracketed content at the second `<` (it takes `split('<')[1]`),
yielding content `sendVal`, an empty channel map and a terminator. -/
theorem C9_counterexample :
    parse_packet ("A<sendVal<0=9>x>CHK".data)
      = some ⟨"A".data, [], "CHK".data,
              "A<sendVal<0=9>x>CHK".data, true⟩ := by
  decide

/-- C9 (amended): the bracketed content is the text after the first
`<` truncated at the next `<` or `>` (whichever comes first), and the
recorded checksum token is the text after the last `>` of the whole
payload; everything in between is discarded. -/
theorem C9_content_and_checksum (s : List Char) (h : '<' ∈ s) :
    contentOf s =
      ((s.dropWhile (fun a => a != '<')).tail).takeWhile
        (fun a => a != '<' && a != '>') ∧
    checksumOf s = (s.reverse.takeWhile (fun a => a != '>')).reverse :=
  ⟨contentOf_of_mem s h, checksumOf_eq s⟩

/-- C9 witness: the characterization evaluated on the counterexample
payload. -/
theorem C9_witness :
    ('<' ∈ "A<sendVal<0=9>x>CHK".data) ∧
    (contentOf ("A<sendVal<0=9>x>CHK".data) =
      ((("A<sendVal<0=9>x>CHK".data).dropWhile (fun a => a != '<')).tail).takeWhile
        (fun a => a != '<' && a != '>') ∧
     checksumOf ("A<sendVal<0=9>x>CHK".data) =
      ((("A<sendVal<0=9>x>CHK".data).reverse).takeWhile (fun a => a != '>')).reverse) :=
  ⟨by decide, C9_content_and_checksum ("A<sendVal<0=9>x>CHK".data) (by decide)⟩

/-- C10 counterexample: `<x>y` begins with `<` but decoding fails
(the bracketed content `x` has no `sendVal`), refuting "every payload
beginning with `<` decodes successfully". -/
theorem C10_counterexample : parse_packet ("<x>y".data) = none := by
  decide

/-- C10 (amended): when a payload beginning with `<` does decode
successfully, the resulting device identity is the empty string. -/
theorem C10_empty_device_id (s t : List Char) (p : Packet)
    (hs : s = '<' :: t) (hp : parse_packet s = some p) :
    p.serial = [] := by
  rcases parse_packet_some_inv s p hp with ⟨h1, hsv, d, hpc, hpe⟩
  subst hpe
  subst hs
  simp [splitCh_cons_self]

/-- C10 witness: a decodable payload starting with `<` yields the
empty-string device id. -/
theorem C10_witness :
    ("<sendVal 0=1>C".data = '<' :: "sendVal 0=1>C".data ∧
     parse_packet ("<sendVal 0=1>C".data)
       = some ⟨[], [("0".data, some "1".data)], "C".data,
               "<sendVal 0=1>C".data, false⟩) ∧
    (⟨[], [("0".data, some "1".data)], "C".data,
      "<sendVal 0=1>C".data, false⟩ : Packet).serial = [] :=
  ⟨⟨by decide, by decide⟩,
   C10_empty_device_id ("<sendVal 0=1>C".data) ("sendVal 0=1>C".data) _
     (by decide) (by decide)⟩
